import Mathlib

/-!
Verification of the NVVM back-end bridge (`numba/cuda/cudadrv/nvvm.py`).

The development shallowly embeds the text-level operations of the module:

* the Python string primitives the code relies on (`str.replace`,
  `str.splitlines`, `"\n".join`, `str.split`, `str.startswith`), modelled
  over `List Char`;
* the atomic CAS-loop IR templates (`cas_nvvm`,
  `ir_numba_atomic_binary_template`, `ir_numba_atomic_inc_template`,
  `ir_numba_atomic_dec_template`, `ir_numba_atomic_minmax_template`) with
  Python `str.format` already applied, so each template is a Lean function
  from its parameters to the produced IR text;
* `llvm_replace`, `llvm150_to_70_ir` (including the regex
  `^attributes #\d+ = \x7b ([\w\s]+)\ \x7d`, whose character classes are
  modelled over ASCII), `CompilationUnit.__init__`'s option stringifier,
  `compile_ir`'s fastmath expansion, `set_launch_bounds`, and
  `NVVM.data_layout`.

Exceptions raised by the Python code are modelled with `Option`/`Except`:
a `none`/`.error` result stands for an uncaught exception.
-/

/-! ## Python string primitives -/

/-- Python `p in s` for strings: `p` occurs as a contiguous substring of `s`. -/
def containsSub : List Char → List Char → Bool
  | [], p => p.isEmpty
  | c :: t, p => p.isPrefixOf (c :: t) || containsSub t p

/-- Scanner for Python `s.replace(p, r)` with a non-empty pattern: scan left
to right, replacing each (non-overlapping) occurrence of `p` by `r`.  The
`fuel` argument (instantiated with the length of the scanned text by
`replaceAllAux`) only makes the recursion structural. -/
def replaceFuel (p r : List Char) : Nat → List Char → List Char
  | 0, s => s
  | fuel + 1, s =>
    match s with
    | [] => []
    | c :: rest =>
      if p.isPrefixOf (c :: rest) then r ++ replaceFuel p r fuel (rest.drop (p.length - 1))
      else c :: replaceFuel p r fuel rest

/-- The left-to-right replacement scanner, at its natural recursion. -/
def replaceAllAux (p r s : List Char) : List Char := replaceFuel p r s.length s

/-- Python `s.replace(p, r)` (on code points).  An empty pattern inserts `r`
before every character and at the end, as in Python. -/
def pyReplace (p r s : List Char) : List Char :=
  if p.isEmpty then r ++ (s.map (fun c => c :: r)).flatten
  else replaceAllAux p r s

/-- `String` wrapper for `pyReplace`. -/
def pyReplaceS (p r s : String) : String := String.mk (pyReplace p.data r.data s.data)

/-- `String` wrapper for `containsSub`. -/
def strContains (s p : String) : Bool := containsSub s.data p.data

/-- The line-break characters recognised by Python `str.splitlines`. -/
def isLineBreak (c : Char) : Bool :=
  c = '\n' || c = '\r' || c = '\x0b' || c = '\x0c' || c = '\x1c' ||
    c = '\x1d' || c = '\x1e' || c = '\x85' || c = '\u2028' || c = '\u2029'

/-- Worker for `splitlns`: `cur` is the (reversed) current line. -/
def splitlinesGo (cur : List Char) : List Char → List (List Char)
  | [] => if cur.isEmpty then [] else [cur.reverse]
  | '\r' :: '\n' :: rest => cur.reverse :: splitlinesGo [] rest
  | c :: rest =>
    if isLineBreak c then cur.reverse :: splitlinesGo [] rest
    else splitlinesGo (c :: cur) rest

/-- Python `s.splitlines()`. -/
def splitlns (s : List Char) : List (List Char) := splitlinesGo [] s

/-- Python `"\n".join(lines)`. -/
def joinNL : List (List Char) → List Char
  | [] => []
  | [l] => l
  | l :: ls => l ++ '\n' :: joinNL ls

/-- ASCII model of the regex class `\w` (Python word character). -/
def isWordChar (c : Char) : Bool := c.isAlphanum || c = '_'

/-- ASCII model of the regex class `\s` / Python split whitespace. -/
def isPySpace (c : Char) : Bool :=
  c = ' ' || c = '\t' || c = '\n' || c = '\r' || c = '\x0b' || c = '\x0c'

/-- A character matched by the regex class `[\w\s]`. -/
def isWordSpace (c : Char) : Bool := isWordChar c || isPySpace c

/-- Python `s.split()`: split on runs of whitespace, discarding empty pieces.
The `fuel` argument (instantiated with the length of the text by `pySplit`)
only makes the recursion structural. -/
def pySplitFuel : Nat → List Char → List (List Char)
  | 0, _ => []
  | fuel + 1, s =>
    match s with
    | [] => []
    | c :: rest =>
      if isPySpace c then pySplitFuel fuel rest
      else (c :: rest).takeWhile (fun a => !isPySpace a) ::
        pySplitFuel fuel ((c :: rest).dropWhile (fun a => !isPySpace a))

/-- Python `s.split()` at its natural recursion. -/
def pySplit (s : List Char) : List (List Char) := pySplitFuel s.length s

/-- Python `" ".join(parts)`. -/
def joinSpaces : List (List Char) → List Char
  | [] => []
  | [t] => t
  | t :: ts => t ++ ' ' :: joinSpaces ts

/-! ## The atomic CAS-loop IR templates

Each definition is the corresponding Python template string with
`str.format` already applied, so the placeholder splices become `++`. -/

/-- `cas_nvvm.format(Ti=Ti)`, as produced by `ir_cas`. -/
def ir_cas (Ti : String) : String :=
  "\n    %cas_success = cmpxchg volatile " ++ Ti ++ "* %iptr, " ++ Ti ++ " %old, " ++ Ti
    ++ " %new monotonic monotonic\n    %cas = extractvalue \x7b " ++ Ti
    ++ ", i1 \x7d %cas_success, 0\n"

/-- `ir_numba_atomic_binary_template.format(T=T, Ti=Ti, OP=OP, FUNC=FUNC, CAS=ir_cas(Ti))`. -/
def ir_numba_atomic_binary (T Ti OP FUNC : String) : String :=
  "\ndefine internal " ++ T ++ " @___numba_atomic_" ++ T ++ "_" ++ FUNC ++ "(" ++ T
    ++ "* %ptr, " ++ T ++ " %val) alwaysinline \x7b\nentry:\n    %iptr = bitcast " ++ T
    ++ "* %ptr to " ++ Ti ++ "*\n    %old2 = load volatile " ++ Ti ++ ", " ++ Ti
    ++ "* %iptr\n    br label %attempt\n\nattempt:\n    %old = phi " ++ Ti
    ++ " [ %old2, %entry ], [ %cas, %attempt ]\n    %dold = bitcast " ++ Ti ++ " %old to "
    ++ T ++ "\n    %dnew = " ++ OP ++ " " ++ T ++ " %dold, %val\n    %new = bitcast " ++ T
    ++ " %dnew to " ++ Ti ++ "\n    " ++ ir_cas Ti
    ++ "\n    %repeat = icmp ne " ++ Ti
    ++ " %cas, %old\n    br i1 %repeat, label %attempt, label %done\n\ndone:\n    %result = bitcast "
    ++ Ti ++ " %old to " ++ T ++ "\n    ret " ++ T ++ " %result\n\x7d\n"

/-- `ir_numba_atomic_inc_template.format(T=T, Tu=Tu, CAS=ir_cas(T))`. -/
def ir_numba_atomic_inc (T Tu : String) : String :=
  "\ndefine internal " ++ T ++ " @___numba_atomic_" ++ Tu ++ "_inc(" ++ T
    ++ "* %iptr, " ++ T ++ " %val) alwaysinline \x7b\nentry:\n    %old2 = load volatile "
    ++ T ++ ", " ++ T
    ++ "* %iptr\n    br label %attempt\n\nattempt:\n    %old = phi " ++ T
    ++ " [ %old2, %entry ], [ %cas, %attempt ]\n    %bndchk = icmp ult " ++ T
    ++ " %old, %val\n    %inc = add " ++ T ++ " %old, 1\n    %new = select i1 %bndchk, "
    ++ T ++ " %inc, " ++ T ++ " 0\n    " ++ ir_cas T
    ++ "\n    %repeat = icmp ne " ++ T
    ++ " %cas, %old\n    br i1 %repeat, label %attempt, label %done\n\ndone:\n    ret "
    ++ T ++ " %old\n\x7d\n"

/-- `ir_numba_atomic_dec_template.format(T=T, Tu=Tu, CAS=ir_cas(T))`. -/
def ir_numba_atomic_dec (T Tu : String) : String :=
  "\ndefine internal " ++ T ++ " @___numba_atomic_" ++ Tu ++ "_dec(" ++ T
    ++ "* %iptr, " ++ T ++ " %val) alwaysinline \x7b\nentry:\n    %old2 = load volatile "
    ++ T ++ ", " ++ T
    ++ "* %iptr\n    br label %attempt\n\nattempt:\n    %old = phi " ++ T
    ++ " [ %old2, %entry ], [ %cas, %attempt ]\n    %dec = add " ++ T
    ++ " %old, -1\n    %bndchk = icmp ult " ++ T
    ++ " %dec, %val\n    %new = select i1 %bndchk, " ++ T ++ " %dec, " ++ T
    ++ " %val\n    " ++ ir_cas T
    ++ "\n    %repeat = icmp ne " ++ T
    ++ " %cas, %old\n    br i1 %repeat, label %attempt, label %done\n\ndone:\n    ret "
    ++ T ++ " %old\n\x7d\n"

/-- `ir_numba_atomic_minmax_template.format(T=T, Ti=Ti, NAN=NAN, OP=OP,
PTR_OR_VAL=PTR_OR_VAL, FUNC=FUNC, CAS=ir_cas(Ti))`. -/
def ir_numba_atomic_minmax (T Ti NAN OP PTR_OR_VAL FUNC : String) : String :=
  "\ndefine internal " ++ T ++ " @___numba_atomic_" ++ T ++ "_" ++ NAN ++ FUNC ++ "(" ++ T
    ++ "* %ptr, " ++ T ++ " %val) alwaysinline \x7b\nentry:\n    %ptrval = load volatile "
    ++ T ++ ", " ++ T
    ++ "* %ptr\n    ; Return early when:\n    ; - For nanmin / nanmax when val is a NaN\n    ; - For min / max when val or ptr is a NaN\n    %early_return = fcmp uno "
    ++ T ++ " %val, %" ++ PTR_OR_VAL
    ++ "val\n    br i1 %early_return, label %done, label %lt_check\n\nlt_check:\n    %dold = phi "
    ++ T
    ++ " [ %ptrval, %entry ], [ %dcas, %attempt ]\n    ; Continue attempts if dold less or greater than val (depending on whether min or max)\n    ; or if dold is NaN (for nanmin / nanmax)\n    %cmp = fcmp "
    ++ OP ++ " " ++ T
    ++ " %dold, %val\n    br i1 %cmp, label %attempt, label %done\n\nattempt:\n    ; Attempt to swap in the value\n    %old = bitcast "
    ++ T ++ " %dold to " ++ Ti ++ "\n    %iptr = bitcast " ++ T ++ "* %ptr to " ++ Ti
    ++ "*\n    %new = bitcast " ++ T ++ " %val to " ++ Ti ++ "\n    " ++ ir_cas Ti
    ++ "\n    %dcas = bitcast " ++ Ti ++ " %cas to " ++ T
    ++ "\n    br label %lt_check\n\ndone:\n    ret " ++ T ++ " %ptrval\n\x7d\n"

/-! ## `llvm150_to_70_ir`: attribute stripping for the older back end -/

/-- Match a literal prefix and return the remainder of the text. -/
def dropLiteral (p s : List Char) : Option (List Char) :=
  if p.isPrefixOf s then some (s.drop p.length) else none

/-- Greedy search for the end of the regex group `([\w\s]+)`: the largest
`k` with `1 ≤ k ≤ bound` such that the literal `" \x7d"` follows `T.take k`. -/
def tryGroup (T : List Char) : Nat → Option Nat
  | 0 => none
  | k + 1 =>
    if [' ', '\x7d'].isPrefixOf (T.drop (k + 1)) then some (k + 1) else tryGroup T k

/-- `re_attributes_def.match(line)`, the Python regex
`^attributes #\d+ = \x7b ([\w\s]+)\ \x7d` anchored at the start of `line`
(character classes modelled over ASCII): returns the captured group. -/
def reMatch (line : List Char) : Option (List Char) :=
  (dropLiteral ("attributes #".data) line).bind fun rest1 =>
    let ds := rest1.takeWhile Char.isDigit
    if ds.isEmpty then none
    else
      (dropLiteral (" = \x7b ".data) (rest1.drop ds.length)).bind fun T =>
        (tryGroup T (T.takeWhile isWordSpace).length).map fun k => T.take k

/-- `" ".join(a for a in attrs.split() if a != "willreturn")`. -/
def stripWillreturn (g : List Char) : List Char :=
  joinSpaces ((pySplit g).filter (fun t => !(t == "willreturn".data)))

/-- One iteration of the loop body of `llvm150_to_70_ir`.  `none` models the
`AttributeError` raised when the line starts with `attributes #` but the
regex does not match (`m` is `None` and `m.group(1)` is dereferenced). -/
def llvm150Line (line : List Char) : Option (List Char) :=
  if ("attributes #".data).isPrefixOf line then
    (reMatch line).map (fun g => pyReplace g (stripWillreturn g) line)
  else some line

/-- The loop of `llvm150_to_70_ir` over the split lines. -/
def llvm150Lines : List (List Char) → Option (List (List Char))
  | [] => some []
  | l :: ls =>
    match llvm150Line l with
    | none => none
    | some l2 => (llvm150Lines ls).map (fun ls2 => l2 :: ls2)

/-- `llvm150_to_70_ir(ir)`: split into lines, strip `willreturn` from
attribute-group definition lines, and re-join with newlines.  `none` models
an uncaught exception. -/
def llvm150_to_70_ir (ir : String) : Option String :=
  (llvm150Lines (splitlns ir.data)).map (fun ls => String.mk (joinNL ls))

/-- The shape of an attribute-group definition line,
`attributes #<ds> = \x7b <body> \x7d`, with `ds` the digit string and
`body` the space-separated attribute tokens. -/
def attrLine (ds body : List Char) : List Char :=
  ("attributes #".data ++ ds ++ " = \x7b ".data) ++ body ++ " \x7d".data

/-! ## `llvm_replace`: declaration-to-definition substitution -/

/-- The `replacements` table of `llvm_replace`, in source order: each
synthesized-atomic declaration paired with its generated definition, and
finally the global deletion of the `immarg` token. -/
def atomicReplacements : List (String × String) :=
  [ ("declare double @\"___numba_atomic_double_add\"(double* %\".1\", double %\".2\")",
      ir_numba_atomic_binary "double" "i64" "fadd" "add"),
    ("declare float @\"___numba_atomic_float_sub\"(float* %\".1\", float %\".2\")",
      ir_numba_atomic_binary "float" "i32" "fsub" "sub"),
    ("declare double @\"___numba_atomic_double_sub\"(double* %\".1\", double %\".2\")",
      ir_numba_atomic_binary "double" "i64" "fsub" "sub"),
    ("declare i64 @\"___numba_atomic_u64_inc\"(i64* %\".1\", i64 %\".2\")",
      ir_numba_atomic_inc "i64" "u64"),
    ("declare i64 @\"___numba_atomic_u64_dec\"(i64* %\".1\", i64 %\".2\")",
      ir_numba_atomic_dec "i64" "u64"),
    ("declare float @\"___numba_atomic_float_max\"(float* %\".1\", float %\".2\")",
      ir_numba_atomic_minmax "float" "i32" "" "nnan olt" "ptr" "max"),
    ("declare double @\"___numba_atomic_double_max\"(double* %\".1\", double %\".2\")",
      ir_numba_atomic_minmax "double" "i64" "" "nnan olt" "ptr" "max"),
    ("declare float @\"___numba_atomic_float_min\"(float* %\".1\", float %\".2\")",
      ir_numba_atomic_minmax "float" "i32" "" "nnan ogt" "ptr" "min"),
    ("declare double @\"___numba_atomic_double_min\"(double* %\".1\", double %\".2\")",
      ir_numba_atomic_minmax "double" "i64" "" "nnan ogt" "ptr" "min"),
    ("declare float @\"___numba_atomic_float_nanmax\"(float* %\".1\", float %\".2\")",
      ir_numba_atomic_minmax "float" "i32" "nan" "ult" "" "max"),
    ("declare double @\"___numba_atomic_double_nanmax\"(double* %\".1\", double %\".2\")",
      ir_numba_atomic_minmax "double" "i64" "nan" "ult" "" "max"),
    ("declare float @\"___numba_atomic_float_nanmin\"(float* %\".1\", float %\".2\")",
      ir_numba_atomic_minmax "float" "i32" "nan" "ugt" "" "min"),
    ("declare double @\"___numba_atomic_double_nanmin\"(double* %\".1\", double %\".2\")",
      ir_numba_atomic_minmax "double" "i64" "nan" "ugt" "" "min"),
    ("immarg", "") ]

/-- `llvm_replace(llvmir)`: apply every replacement of the table with Python
`str.replace`, in order, then run `llvm150_to_70_ir` on the result. -/
def llvm_replace (llvmir : String) : Option String :=
  llvm150_to_70_ir (atomicReplacements.foldl (fun s dr => pyReplaceS dr.1 dr.2 s) llvmir)

/-! ## Option encoding (`CompilationUnit.__init__`) -/

/-- The value kinds an option can take (a closed model of the Python values
used by callers: `None`, `bool`, `int`, `str`). -/
inductive OptValue
  | vNone
  | vBool (b : Bool)
  | vInt (n : Int)
  | vStr (s : String)
deriving DecidableEq, Repr

/-- `stringify_option(k, v)` from `CompilationUnit.__init__` (the final UTF-8
encoding to bytes is dropped: the model stays at the level of text). -/
def stringify_option (k : String) (v : OptValue) : String :=
  let k2 := pyReplaceS "_" "-" k
  match v with
  | .vNone => "-" ++ k2
  | .vBool b => "-" ++ k2 ++ "=" ++ (if b then "1" else "0")
  | .vInt n => "-" ++ k2 ++ "=" ++ toString n
  | .vStr s => "-" ++ k2 ++ "=" ++ s

/-- `[stringify_option(k, v) for k, v in options.items()]`; the
insertion-ordered dict is modelled as an association list. -/
def stringifyOptions (options : List (String × OptValue)) : List String :=
  options.map (fun kv => stringify_option kv.1 kv.2)

/-- Modelled from the spec (for comparison with `stringify_option`): "replace
`_` with `-` in the name; a value of none/absent yields a flag-only token
`-<name>`; a boolean value is coerced to 0/1; any other value is rendered as
`-<name>=<value>`", with the underscore replacement read as a per-character
substitution. -/
def specRenderOption (k : String) (v : OptValue) : String :=
  let name := String.mk (k.data.map (fun c => if c = '_' then '-' else c))
  match v with
  | .vNone => "-" ++ name
  | .vBool b => "-" ++ name ++ "=" ++ (if b then "1" else "0")
  | .vInt n => "-" ++ name ++ "=" ++ toString n
  | .vStr s => "-" ++ name ++ "=" ++ s

/-! ## The fastmath expansion of `compile_ir` -/

/-- Python truthiness of an option value. -/
def truthy : OptValue → Bool
  | .vNone => false
  | .vBool b => b
  | .vInt n => n != 0
  | .vStr s => s != ""

/-- `k in d` for the ordered-dict model. -/
def hasKey (d : List (String × OptValue)) (k : String) : Bool :=
  d.any (fun kv => kv.1 == k)

/-- `d.get(k)` for the ordered-dict model. -/
def lookupOpt (d : List (String × OptValue)) (k : String) : Option OptValue :=
  (d.find? (fun kv => kv.1 == k)).map (fun kv => kv.2)

/-- Removal of a key (the mutation performed by `dict.pop`). -/
def removeKey (d : List (String × OptValue)) (k : String) : List (String × OptValue) :=
  d.filter (fun kv => !(kv.1 == k))

/-- `d[k] = v` on an insertion-ordered dict: overwrite in place when the key
is present, otherwise append. -/
def setKey (d : List (String × OptValue)) (k : String) (v : OptValue) :
    List (String × OptValue) :=
  if hasKey d k then d.map (fun kv => if kv.1 == k then (k, v) else kv) else d ++ [(k, v)]

/-- `d.update(new)`. -/
def updateDict (d new : List (String × OptValue)) : List (String × OptValue) :=
  new.foldl (fun acc kv => setKey acc kv.1 kv.2) d

/-- The four options `fastmath` expands to, in source order. -/
def fastmathExpansion : List (String × OptValue) :=
  [("ftz", .vBool true), ("fma", .vBool true),
   ("prec_div", .vBool false), ("prec_sqrt", .vBool false)]

/-- The option preprocessing of `compile_ir`:
`if options.pop("fastmath", False): options.update({...})`. -/
def compile_ir_options (options : List (String × OptValue)) : List (String × OptValue) :=
  let v := (lookupOpt options "fastmath").getD (.vBool false)
  let rest := removeKey options "fastmath"
  if truthy v then updateDict rest fastmathExpansion else rest

/-! ## `set_launch_bounds` -/

/-- The argument accepted by `set_launch_bounds`: `None`, a single int, or a
tuple of ints. -/
inductive LaunchBoundsArg
  | noneArg
  | intArg (n : Int)
  | tupleArg (l : List Int)

/-- The three metadata property names, in source order. -/
def launchBoundsProperties : List String := ["maxntidx", "minctasm", "cluster_max_blocks"]

/-- Worker for `set_launch_bounds`: the `ValueError` raised for more than
three bounds is modelled by `.error (len(launch_bounds), launch_bounds)`; it
happens before the module's metadata is touched.  Otherwise
`zip(properties, launch_bounds)` appends one `(property, bound)` entry per
bound to the module's `nvvm.annotations` metadata (modelled as a list). -/
def setLaunchBoundsList (annotations : List (String × Int)) (bounds : List Int) :
    Except (Nat × List Int) (List (String × Int)) :=
  if 3 < bounds.length then .error (bounds.length, bounds)
  else .ok (annotations ++ launchBoundsProperties.zip bounds)

/-- `set_launch_bounds(kernel, launch_bounds)` acting on the module metadata. -/
def set_launch_bounds (annotations : List (String × Int)) :
    LaunchBoundsArg → Except (Nat × List Int) (List (String × Int))
  | .noneArg => .ok annotations
  | .intArg n => setLaunchBoundsList annotations [n]
  | .tupleArg l => setLaunchBoundsList annotations l

/-! ## Data-layout selection (`NVVM.data_layout`) -/

/-- `_datalayout_original` (no 128-bit integer alignment). -/
def _datalayout_original : String :=
  "e-p:64:64:64-i1:8:8-i8:8:8-i16:16:16-i32:32:32-i64:64:64-f32:32:32-f64:64:64-v16:16:16-v32:32:32-v64:64:64-v128:128:128-n16:32:64"

/-- `_datalayout_i128` (NVVM IR 1.8 and newer). -/
def _datalayout_i128 : String :=
  "e-p:64:64:64-i1:8:8-i8:8:8-i16:16:16-i32:32:32-i64:64:64-i128:128:128-f32:32:32-f64:64:64-v16:16:16-v32:32:32-v64:64:64-v128:128:128-n16:32:64"

/-- `NVVM.data_layout`, parameterised by the IR version queried at driver
initialisation; Python `(self._majorIR, self._minorIR) < (1, 8)` is the
lexicographic order on pairs. -/
def data_layout (majorIR minorIR : Int) : String :=
  if majorIR < 1 ∨ (majorIR = 1 ∧ minorIR < 8) then _datalayout_original
  else _datalayout_i128

/-! ## Operational models of the CAS retry loops

Bit patterns stored in memory are modelled as `Nat`; concurrent interference
is abstracted by an oracle `obs` giving the memory contents observed by the
`k`-th access; `fuel` bounds the number of loop iterations (`none` means the
loop has not terminated within `fuel` iterations).  The value a successful
CAS writes back changes only the memory, which the oracle abstracts, so it
does not appear in the recursion. -/

/-- The `attempt` loop of `ir_numba_atomic_binary_template`: `old` is the
current `%old` (the phi of `%old2` and `%cas`); `%dnew` is `op` applied to
`%dold` and `%val`; the CAS at iteration `k` observes `obs k` (that is,
`%cas = obs k`), succeeds iff the observation equals `old`, and on success
the function returns that final `%old`. -/
def binaryCasLoop (op : Nat → Nat → Nat) (val : Nat) (obs : Nat → Nat) :
    Nat → Nat → Nat → Option Nat
  | 0, _, _ => none
  | fuel + 1, k, old =>
    let _dnew := op old val
    if obs k = old then some old
    else binaryCasLoop op val obs fuel (k + 1) (obs k)

/-- The `lt_check`/`attempt` loop of `ir_numba_atomic_minmax_template`:
`dold` is the current `%dold`; while `cmp dold val` holds the loop attempts
a CAS whose observed value (`%cas`, bitcast to `%dcas = obs k`) becomes the
new `%dold`; when the comparison fails the function returns `%ptrval`. -/
def minmaxCasLoop (cmp : Nat → Nat → Bool) (val ptrval : Nat) (obs : Nat → Nat) :
    Nat → Nat → Nat → Option Nat
  | 0, _, _ => none
  | fuel + 1, k, dold =>
    if cmp dold val then minmaxCasLoop cmp val ptrval obs fuel (k + 1) (obs k)
    else some ptrval

/-- The whole body of a generated min/max function: early return (the
`fcmp uno` branch) when `unordered` is true, else the retry loop; `%dold`
starts at `%ptrval`. -/
def minmaxAtomic (unordered : Bool) (cmp : Nat → Nat → Bool) (val ptrval : Nat)
    (obs : Nat → Nat) (fuel : Nat) : Option Nat :=
  if unordered then some ptrval else minmaxCasLoop cmp val ptrval obs fuel 0 ptrval

/-! ## The fixed catalog of generated atomics, as instantiated in `llvm_replace` -/

/-- Parameters of one generated min/max function. -/
structure MinmaxSpec where
  T : String
  Ti : String
  NAN : String
  OP : String
  PTR_OR_VAL : String
  FUNC : String

/-- The eight min/max instantiations of `llvm_replace`, in source order. -/
def minmaxSpecs : List MinmaxSpec :=
  [ ⟨"float", "i32", "", "nnan olt", "ptr", "max"⟩,
    ⟨"double", "i64", "", "nnan olt", "ptr", "max"⟩,
    ⟨"float", "i32", "", "nnan ogt", "ptr", "min"⟩,
    ⟨"double", "i64", "", "nnan ogt", "ptr", "min"⟩,
    ⟨"float", "i32", "nan", "ult", "", "max"⟩,
    ⟨"double", "i64", "nan", "ult", "", "max"⟩,
    ⟨"float", "i32", "nan", "ugt", "", "min"⟩,
    ⟨"double", "i64", "nan", "ugt", "", "min"⟩ ]

/-- The generated text of one min/max function. -/
def genMinmax (s : MinmaxSpec) : String :=
  ir_numba_atomic_minmax s.T s.Ti s.NAN s.OP s.PTR_OR_VAL s.FUNC

/-- Parameters of one generated binary (add/sub) function. -/
structure BinarySpec where
  T : String
  Ti : String
  OP : String
  FUNC : String

/-- The three binary add/sub instantiations of `llvm_replace`, in source order. -/
def binarySpecs : List BinarySpec :=
  [ ⟨"double", "i64", "fadd", "add"⟩,
    ⟨"float", "i32", "fsub", "sub"⟩,
    ⟨"double", "i64", "fsub", "sub"⟩ ]

/-- The generated text of one binary add/sub function. -/
def genBinary (s : BinarySpec) : String := ir_numba_atomic_binary s.T s.Ti s.OP s.FUNC


/-! ## Lemmas about the string primitives -/

theorem length_dropWhile_le (p : Char → Bool) (l : List Char) :
    (l.dropWhile p).length ≤ l.length := by
  induction l with
  | nil => simp
  | cons c t ih =>
    by_cases h : p c
    · simp only [List.dropWhile_cons, h, if_true, List.length_cons]
      exact Nat.le_succ_of_le ih
    · simp [List.dropWhile_cons, h]

theorem replaceFuel_congr (p r : List Char) (fuel₁ : Nat) :
    ∀ (fuel₂ : Nat) (s : List Char), s.length ≤ fuel₁ → s.length ≤ fuel₂ →
      replaceFuel p r fuel₁ s = replaceFuel p r fuel₂ s := by
  induction fuel₁ with
  | zero =>
    intro fuel₂ s h1 _
    have : s = [] := List.length_eq_zero.mp (Nat.le_zero.mp h1)
    subst this
    cases fuel₂ <;> rfl
  | succ n ih =>
    intro fuel₂ s h1 h2
    cases s with
    | nil => cases fuel₂ <;> rfl
    | cons c rest =>
      cases fuel₂ with
      | zero => simp at h2
      | succ m =>
        have hr1 : rest.length ≤ n := by
          simp only [List.length_cons] at h1
          omega
        have hr2 : rest.length ≤ m := by
          simp only [List.length_cons] at h2
          omega
        have hd1 : (rest.drop (p.length - 1)).length ≤ n := by
          simp only [List.length_drop]
          omega
        have hd2 : (rest.drop (p.length - 1)).length ≤ m := by
          simp only [List.length_drop]
          omega
        rw [replaceFuel, replaceFuel]
        by_cases hp : p.isPrefixOf (c :: rest)
        · rw [if_pos hp, if_pos hp, ih m _ hd1 hd2]
        · rw [if_neg hp, if_neg hp, ih m _ hr1 hr2]

theorem replaceAllAux_nil (p r : List Char) : replaceAllAux p r [] = [] := rfl

theorem replaceAllAux_cons (p r : List Char) (c : Char) (rest : List Char) :
    replaceAllAux p r (c :: rest) =
      if p.isPrefixOf (c :: rest) then r ++ replaceAllAux p r (rest.drop (p.length - 1))
      else c :: replaceAllAux p r rest := by
  rw [replaceAllAux, show (c :: rest).length = rest.length + 1 from rfl, replaceFuel]
  by_cases hp : p.isPrefixOf (c :: rest)
  · rw [if_pos hp, if_pos hp,
      replaceFuel_congr p r rest.length (rest.drop (p.length - 1)).length _ (by simp) (by simp)]
    rfl
  · rw [if_neg hp, if_neg hp]
    rfl

theorem pySplitFuel_congr :
    ∀ (fuel₁ fuel₂ : Nat) (s : List Char), s.length ≤ fuel₁ → s.length ≤ fuel₂ →
      pySplitFuel fuel₁ s = pySplitFuel fuel₂ s := by
  intro fuel₁
  induction fuel₁ with
  | zero =>
    intro fuel₂ s h1 _
    have : s = [] := List.length_eq_zero.mp (Nat.le_zero.mp h1)
    subst this
    cases fuel₂ <;> rfl
  | succ n ih =>
    intro fuel₂ s h1 h2
    cases s with
    | nil => cases fuel₂ <;> rfl
    | cons c rest =>
      cases fuel₂ with
      | zero => simp at h2
      | succ m =>
        have hr1 : rest.length ≤ n := by
          simp only [List.length_cons] at h1
          omega
        have hr2 : rest.length ≤ m := by
          simp only [List.length_cons] at h2
          omega
        have hdw : ((c :: rest).dropWhile (fun a => !isPySpace a)).length ≤ rest.length + 1 :=
          length_dropWhile_le _ _
        rw [pySplitFuel, pySplitFuel]
        by_cases hc : isPySpace c
        · rw [if_pos hc, if_pos hc, ih m rest hr1 hr2]
        · rw [if_neg hc, if_neg hc]
          have hd1 : ((c :: rest).dropWhile (fun a => !isPySpace a)).length ≤ n := by
            simp only [List.dropWhile_cons, hc, Bool.not_false, if_true] at hdw ⊢
            have := length_dropWhile_le (fun a => !isPySpace a) rest
            omega
          have hd2 : ((c :: rest).dropWhile (fun a => !isPySpace a)).length ≤ m := by
            simp only [List.dropWhile_cons, hc, Bool.not_false, if_true]
            have := length_dropWhile_le (fun a => !isPySpace a) rest
            omega
          rw [ih m _ hd1 hd2]

theorem pySplit_nil : pySplit [] = [] := rfl

theorem pySplit_cons (c : Char) (rest : List Char) :
    pySplit (c :: rest) =
      if isPySpace c then pySplit rest
      else (c :: rest).takeWhile (fun a => !isPySpace a) ::
        pySplit ((c :: rest).dropWhile (fun a => !isPySpace a)) := by
  rw [pySplit, show (c :: rest).length = rest.length + 1 from rfl, pySplitFuel]
  by_cases hc : isPySpace c
  · rw [if_pos hc, if_pos hc]
    rfl
  · rw [if_neg hc, if_neg hc]
    rw [pySplitFuel_congr rest.length ((c :: rest).dropWhile (fun a => !isPySpace a)).length _
      ?_ (by simp)]
    · rfl
    · simp only [List.dropWhile_cons, hc, Bool.not_false, if_true]
      have := length_dropWhile_le (fun a => !isPySpace a) rest
      omega

theorem containsSub_nil_iff (p : List Char) : containsSub [] p = p.isEmpty := rfl

theorem containsSub_cons (c : Char) (t p : List Char) :
    containsSub (c :: t) p = (p.isPrefixOf (c :: t) || containsSub t p) := rfl

theorem replaceAllAux_of_not_contains (p r : List Char) (s : List Char)
    (h : containsSub s p = false) : replaceAllAux p r s = s := by
  induction s with
  | nil => rfl
  | cons c t ih =>
    rw [containsSub_cons, Bool.or_eq_false_iff] at h
    rw [replaceAllAux_cons, if_neg (by simp [h.1]), ih h.2]

theorem not_isEmpty_of_not_contains (p s : List Char) (h : containsSub s p = false) :
    p.isEmpty = false := by
  cases p with
  | nil =>
    cases s with
    | nil => simp [containsSub_nil_iff] at h
    | cons c t => simp [containsSub_cons, List.isPrefixOf] at h
  | cons a q => rfl

theorem pyReplace_of_not_contains (p r s : List Char) (h : containsSub s p = false) :
    pyReplace p r s = s := by
  rw [pyReplace, if_neg (by simp [not_isEmpty_of_not_contains p s h]),
    replaceAllAux_of_not_contains p r s h]

theorem replaceAllAux_append_of_no_match (p r : List Char) (pre rest : List Char)
    (h : ∀ k, k < pre.length → p.isPrefixOf ((pre ++ rest).drop k) = false) :
    replaceAllAux p r (pre ++ rest) = pre ++ replaceAllAux p r rest := by
  induction pre with
  | nil => simp
  | cons c t ih =>
    have h0 := h 0 (by simp)
    rw [List.drop_zero, List.cons_append] at h0
    rw [List.cons_append, replaceAllAux_cons, if_neg (by simp [h0])]
    have hshift : ∀ k, k < t.length → p.isPrefixOf ((t ++ rest).drop k) = false := by
      intro k hk
      have := h (k + 1) (by simp only [List.length_cons]; omega)
      simpa using this
    rw [ih hshift]
    rfl

theorem replaceAllAux_append_match (p r rest : List Char) (hp : p ≠ []) :
    replaceAllAux p r (p ++ rest) = r ++ replaceAllAux p r rest := by
  cases p with
  | nil => exact absurd rfl hp
  | cons a q =>
    rw [List.cons_append, replaceAllAux_cons, if_pos]
    · have hdrop : (q ++ rest).drop ((a :: q).length - 1) = rest := by
        simp only [List.length_cons, Nat.add_sub_cancel]
        exact List.drop_left q rest
      rw [hdrop]
    · exact List.isPrefixOf_iff_prefix.mpr ⟨rest, by simp⟩

theorem replaceAllAux_self (p : List Char) (hp : p ≠ []) :
    ∀ s : List Char, replaceAllAux p p s = s := by
  suffices hgen : ∀ (n : Nat) (s : List Char), s.length = n → replaceAllAux p p s = s by
    intro s
    exact hgen s.length s rfl
  intro n
  induction n using Nat.strong_induction_on with
  | _ n ih =>
    intro s hn
    cases s with
    | nil => rfl
    | cons c t =>
      by_cases hpre : p.isPrefixOf (c :: t)
      · obtain ⟨tail, htail⟩ := List.isPrefixOf_iff_prefix.mp hpre
        rw [replaceAllAux_cons, if_pos hpre]
        have hdrop : t.drop (p.length - 1) = tail := by
          have h1 : ((c :: t).drop p.length) = tail := by
            rw [← htail]
            exact List.drop_left p tail
          cases p with
          | nil => exact absurd rfl hp
          | cons a q => simpa using h1
        have htl : tail.length < n := by
          have : (c :: t).length = p.length + tail.length := by
            rw [← htail]
            simp
          cases p with
          | nil => exact absurd rfl hp
          | cons a q =>
            simp only [List.length_cons] at this hn
            omega
        rw [hdrop, ih tail.length htl tail rfl, htail]
      · rw [replaceAllAux_cons, if_neg hpre]
        have : t.length < n := by
          simp only [List.length_cons] at hn
          omega
        rw [ih t.length this t rfl]

theorem replaceAllAux_singleton (a b : Char) (s : List Char) :
    replaceAllAux [a] [b] s = s.map (fun c => if c = a then b else c) := by
  induction s with
  | nil => rfl
  | cons c t ih =>
    by_cases hc : c = a
    · subst hc
      rw [replaceAllAux_cons, if_pos (by simp [List.isPrefixOf])]
      simpa using ih
    · rw [replaceAllAux_cons,
        if_neg (by simp only [List.isPrefixOf, Bool.and_eq_true, beq_iff_eq]; exact fun hh => hc hh.1.symm)]
      simp only [List.map_cons, if_neg hc]
      rw [ih]

/-! ## Lemmas about the operational CAS-loop models -/

theorem minmaxCasLoop_ret (cmp : Nat → Nat → Bool) (val ptrval : Nat) (obs : Nat → Nat) :
    ∀ (fuel k dold r : Nat),
      minmaxCasLoop cmp val ptrval obs fuel k dold = some r → r = ptrval := by
  intro fuel
  induction fuel with
  | zero =>
    intro k dold r h
    exact absurd h (by simp [minmaxCasLoop])
  | succ m ih =>
    intro k dold r h
    rw [minmaxCasLoop] at h
    by_cases hc : cmp dold val
    · rw [if_pos hc] at h
      exact ih _ _ _ h
    · rw [if_neg hc] at h
      exact (Option.some_inj.mp h).symm

theorem minmaxAtomic_ret (unordered : Bool) (cmp : Nat → Nat → Bool) (val ptrval : Nat)
    (obs : Nat → Nat) (fuel r : Nat) (h : minmaxAtomic unordered cmp val ptrval obs fuel = some r) :
    r = ptrval := by
  rw [minmaxAtomic] at h
  by_cases hu : unordered = true
  · rw [if_pos hu] at h
    exact (Option.some_inj.mp h).symm
  · rw [if_neg hu] at h
    exact minmaxCasLoop_ret cmp val ptrval obs fuel 0 ptrval r h

/-! ## Lemmas about the option encoder -/

theorem stringify_option_eq_spec (k : String) (v : OptValue) :
    stringify_option k v = specRenderOption k v := by
  have hk : pyReplaceS "_" "-" k =
      String.mk (k.data.map (fun c => if c = '_' then '-' else c)) := by
    rw [pyReplaceS, show ("_" : String).data = ['_'] from rfl,
      show ("-" : String).data = ['-'] from rfl, pyReplace, if_neg (by simp),
      replaceAllAux_singleton]
  cases v <;> simp [stringify_option, specRenderOption, hk]

/-- C5: the option encoding of `CompilationUnit.__init__` is a pure,
order-preserving map over the insertion-ordered configuration: each name has
every underscore replaced by a dash, a `None` value yields the flag-only
token `-<name>`, a boolean is coerced to `0`/`1` and rendered as
`-<name>=0`/`-<name>=1`, any other value is rendered as `-<name>=<value>`,
and the emitted tokens are in insertion order (the i-th token encodes the
i-th entry). -/
theorem c5_option_encoding_pure (options : List (String × OptValue)) :
    stringifyOptions options = options.map (fun kv => specRenderOption kv.1 kv.2) ∧
    (stringifyOptions options).length = options.length := by
  constructor
  · simp only [stringifyOptions, stringify_option_eq_spec]
  · simp [stringifyOptions]

/-- C7: launch-bound attachment: `None` leaves the metadata unchanged; a
single integer behaves exactly like a one-element tuple; more than three
bounds raise a `ValueError` (modelled by `.error`) with the metadata
untouched; and a k-tuple with k ≤ 3 appends exactly the first k
`(property, bound)` pairs, in order, out of
`(maxntidx, minctasm, cluster_max_blocks)`. -/
theorem c7_launch_bounds (annotations : List (String × Int)) (n : Int) (l : List Int) :
    set_launch_bounds annotations .noneArg = .ok annotations ∧
    set_launch_bounds annotations (.intArg n) = set_launch_bounds annotations (.tupleArg [n]) ∧
    (3 < l.length → set_launch_bounds annotations (.tupleArg l) = .error (l.length, l)) ∧
    (l.length ≤ 3 →
      set_launch_bounds annotations (.tupleArg l) =
          .ok (annotations ++ launchBoundsProperties.zip l) ∧
        (launchBoundsProperties.zip l).length = l.length) := by
  refine ⟨rfl, rfl, fun h => ?_, fun h => ⟨?_, ?_⟩⟩
  · rw [set_launch_bounds, setLaunchBoundsList, if_pos h]
  · rw [set_launch_bounds, setLaunchBoundsList, if_neg (by omega)]
  · rw [List.length_zip]
    have : launchBoundsProperties.length = 3 := rfl
    omega

theorem c7_launch_bounds_witness :
    set_launch_bounds [] (.tupleArg [1, 2, 3, 4]) = .error (4, [1, 2, 3, 4]) ∧
    set_launch_bounds [] (.tupleArg [5, 6]) = .ok ([] ++ launchBoundsProperties.zip [5, 6]) := by
  refine ⟨?_, ?_⟩
  · have h := (c7_launch_bounds [] 0 [1, 2, 3, 4]).2.2.1 (by decide)
    simpa using h
  · exact ((c7_launch_bounds [] 0 [5, 6]).2.2.2 (by decide)).1

/-- C8: data-layout selection: the original layout string (without i128
alignment) is chosen exactly when the queried IR version pair is
lexicographically below (1, 8), and the 128-bit-integer layout when it is
(1, 8) or higher; the choice is a function of the queried version (not
hard-coded: versions (1,7) and (1,8) give different strings), and the two
layout strings differ exactly in the `i128:128:128` component. -/
theorem c8_data_layout_selection (majorIR minorIR : Int) :
    ((majorIR < 1 ∨ (majorIR = 1 ∧ minorIR < 8)) →
      data_layout majorIR minorIR = _datalayout_original) ∧
    (¬(majorIR < 1 ∨ (majorIR = 1 ∧ minorIR < 8)) →
      data_layout majorIR minorIR = _datalayout_i128) ∧
    data_layout 1 7 = _datalayout_original ∧
    data_layout 1 8 = _datalayout_i128 ∧
    data_layout 2 0 = _datalayout_i128 ∧
    _datalayout_original ≠ _datalayout_i128 ∧
    strContains _datalayout_i128 "i128:128:128" = true ∧
    strContains _datalayout_original "i128" = false := by
  refine ⟨fun h => by rw [data_layout, if_pos h], fun h => by rw [data_layout, if_neg h],
    ?_, ?_, ?_, ?_, ?_, ?_⟩
  · rw [data_layout, if_pos (Or.inr ⟨rfl, by norm_num⟩)]
  · rw [data_layout, if_neg (by norm_num)]
  · rw [data_layout, if_neg (by norm_num)]
  · decide
  · decide
  · decide

theorem c8_data_layout_witness :
    data_layout 0 11 = _datalayout_original ∧ data_layout 3 1 = _datalayout_i128 := by
  refine ⟨(c8_data_layout_selection 0 11).1 (Or.inl (by norm_num)),
    (c8_data_layout_selection 3 1).2.1 (by norm_num)⟩

/-! ## Totality of `llvm150_to_70_ir` -/

theorem llvm150Line_eq_none_iff (l : List Char) :
    llvm150Line l = none ↔
      (("attributes #".data).isPrefixOf l = true ∧ reMatch l = none) := by
  rw [llvm150Line]
  by_cases h : ("attributes #".data).isPrefixOf l
  · rw [if_pos (by simp [h])]
    cases hm : reMatch l with
    | none => simp [h, hm]
    | some g => simp [h, hm]
  · rw [if_neg (by simp [h])]
    constructor
    · intro hfalse
      exact absurd hfalse (by simp)
    · intro hc
      exact absurd hc.1 (by simpa using h)

theorem llvm150Lines_eq_none_iff (ls : List (List Char)) :
    llvm150Lines ls = none ↔ ∃ l ∈ ls, llvm150Line l = none := by
  induction ls with
  | nil => simp [llvm150Lines]
  | cons l ls ih =>
    rw [llvm150Lines]
    cases hl : llvm150Line l with
    | none => simp [hl]
    | some l2 => simp [hl, Option.map_eq_none', ih]

/-- C9: the attribute-stripping pass is partial: `llvm150_to_70_ir` raises
(modelled by `none`) precisely when some line of the input starts with
`attributes #` but is not matched by the regex
`^attributes #\d+ = \x7b ([\w\s]+)\ \x7d` (for instance because the
attribute-group body contains characters outside `[\w\s]`), because the
match result is dereferenced unconditionally; it is total as soon as every
such line matches. -/
theorem c9_attribute_regex_partiality (s : String) :
    llvm150_to_70_ir s = none ↔
      ∃ l ∈ splitlns s.data,
        ("attributes #".data).isPrefixOf l = true ∧ reMatch l = none := by
  rw [llvm150_to_70_ir, Option.map_eq_none', llvm150Lines_eq_none_iff]
  constructor
  · rintro ⟨l, hl, hnone⟩
    exact ⟨l, hl, (llvm150Line_eq_none_iff l).mp hnone⟩
  · rintro ⟨l, hl, hcond⟩
    exact ⟨l, hl, (llvm150Line_eq_none_iff l).mpr hcond⟩

theorem c9_attribute_regex_witness :
    llvm150_to_70_ir "declare void @f()\nattributes #0 = \x7b \"frame-pointer\"=\"all\" \x7d" =
      none :=
  (c9_attribute_regex_partiality _).mpr
    ⟨"attributes #0 = \x7b \"frame-pointer\"=\"all\" \x7d".data, by decide, by decide, by decide⟩

/-! ## Idempotence of the substitution pass -/

/-- C3 counterexample: `llvm_replace` is not idempotent.  On the input
`imimmargmarg` the first pass deletes the single occurrence of `immarg`,
and the two remnants concatenate into a fresh `immarg`, which only a second
pass deletes. -/
theorem c3_idempotence_counterexample :
    (llvm_replace "imimmargmarg").bind llvm_replace ≠ llvm_replace "imimmargmarg" := by
  decide

theorem foldl_pyReplaceS_fixed (rs : List (String × String)) (y : String)
    (h : ∀ dr ∈ rs, containsSub y.data dr.1.data = false) :
    rs.foldl (fun s dr => pyReplaceS dr.1 dr.2 s) y = y := by
  induction rs with
  | nil => rfl
  | cons r rs ih =>
    rw [List.foldl_cons]
    have h1 : pyReplaceS r.1 r.2 y = y := by
      have hy := pyReplace_of_not_contains r.1.data r.2.data y.data (h r (by simp))
      rw [pyReplaceS, hy]
    rw [h1]
    exact ih (fun dr hdr => h dr (by simp [hdr]))

/-- C3 (amended): the substitution is idempotent on every input whose
first-pass output is stable, i.e. contains no occurrence of any replacement
pattern (each declaration pattern was consumed and no synthesized definition
or remnant reintroduced one, nor an `immarg` token) and is a fixed point of
the attribute-stripping pass.  The counterexample shows the unrestricted
statement fails: deleting `immarg` occurrences can create a new one. -/
theorem c3_idempotent_on_stable_output (x y : String)
    (hx : llvm_replace x = some y)
    (hclean : atomicReplacements.all (fun dr => !(strContains y dr.1)) = true)
    (hfix : llvm150_to_70_ir y = some y) :
    (llvm_replace x).bind llvm_replace = llvm_replace x := by
  rw [hx, Option.some_bind]
  have hfold : atomicReplacements.foldl (fun s dr => pyReplaceS dr.1 dr.2 s) y = y := by
    apply foldl_pyReplaceS_fixed
    intro dr hdr
    have := (List.all_eq_true.mp hclean) dr hdr
    simpa [strContains] using this
  rw [llvm_replace, hfold]
  exact hfix

theorem c3_idempotent_witness :
    (llvm_replace "hello").bind llvm_replace = llvm_replace "hello" :=
  c3_idempotent_on_stable_output "hello" "hello" (by decide) (by decide) (by decide)

/-! ## Global deletion of `immarg` -/

/-- C10: the `immarg` token is removed by an unrestricted global substring
replacement over the whole module text, not by per-attribute-line stripping:
an occurrence of `immarg` anywhere in the text (before which no other
occurrence starts) is simply deleted, and in particular a symbol name
containing `immarg` is silently mangled by `llvm_replace`. -/
theorem c10_immarg_global_deletion (pre suf : List Char)
    (hpre : ∀ k, k < pre.length →
      ("immarg".data).isPrefixOf (((pre ++ "immarg".data) ++ suf).drop k) = false) :
    pyReplace ("immarg".data) [] ((pre ++ "immarg".data) ++ suf) =
        pre ++ pyReplace ("immarg".data) [] suf ∧
    llvm_replace "@myimmargfn = global i32 0" = some "@myfn = global i32 0" := by
  constructor
  · rw [pyReplace, if_neg (by simp), pyReplace, if_neg (by simp)]
    have hassoc : (pre ++ "immarg".data) ++ suf = pre ++ ("immarg".data ++ suf) :=
      List.append_assoc pre ("immarg".data) suf
    rw [hassoc] at hpre ⊢
    rw [replaceAllAux_append_of_no_match ("immarg".data) [] pre ("immarg".data ++ suf) hpre]
    rw [replaceAllAux_append_match ("immarg".data) [] suf (by decide)]
    simp
  · decide

theorem c10_immarg_witness :
    pyReplace ("immarg".data) [] (("@my".data ++ "immarg".data) ++ "fn".data) =
      "@my".data ++ pyReplace ("immarg".data) [] "fn".data :=
  (c10_immarg_global_deletion ("@my".data) ("fn".data) (by decide)).1

/-! ## The fastmath expansion -/

theorem hasKey_filter_false (d : List (String × OptValue)) (p : String × OptValue → Bool)
    (k : String) (h : hasKey d k = false) : hasKey (d.filter p) k = false := by
  rw [hasKey, List.any_eq_false]
  intro a ha
  rw [hasKey, List.any_eq_false] at h
  exact h a (List.mem_of_mem_filter ha)

theorem removeKey_of_not_hasKey (d : List (String × OptValue)) (k : String)
    (h : hasKey d k = false) : removeKey d k = d := by
  rw [removeKey, List.filter_eq_self]
  intro a ha
  rw [hasKey, List.any_eq_false] at h
  simpa using h a ha

theorem setKey_append_of_fresh (d : List (String × OptValue)) (k : String) (v : OptValue)
    (h : hasKey d k = false) : setKey d k v = d ++ [(k, v)] := by
  rw [setKey, if_neg (by simp [h])]

theorem hasKey_append (d e : List (String × OptValue)) (k : String) :
    hasKey (d ++ e) k = (hasKey d k || hasKey e k) := by
  simp [hasKey, List.any_append]

theorem hasKey_eq_false_of_lookup_none (d : List (String × OptValue)) (k : String)
    (h : lookupOpt d k = none) : hasKey d k = false := by
  rw [lookupOpt, Option.map_eq_none', List.find?_eq_none] at h
  rw [hasKey, List.any_eq_false]
  intro a ha
  exact h a ha

theorem updateDict_fastmath_fresh (d : List (String × OptValue))
    (h1 : hasKey d "ftz" = false) (h2 : hasKey d "fma" = false)
    (h3 : hasKey d "prec_div" = false) (h4 : hasKey d "prec_sqrt" = false) :
    updateDict d fastmathExpansion = d ++ fastmathExpansion := by
  rw [updateDict, fastmathExpansion]
  rw [List.foldl_cons, setKey_append_of_fresh _ _ _ h1]
  rw [List.foldl_cons, setKey_append_of_fresh _ _ _
    (by rw [hasKey_append]; simp [h2]; decide)]
  rw [List.foldl_cons, setKey_append_of_fresh _ _ _
    (by rw [hasKey_append, hasKey_append]; simp [h3]; decide)]
  rw [List.foldl_cons, setKey_append_of_fresh _ _ _
    (by rw [hasKey_append, hasKey_append, hasKey_append]; simp [h4]; decide)]
  rw [List.foldl_nil]
  simp [fastmathExpansion]

/-- C6: when the options passed to `compile_ir` contain `fastmath` with a
truthy value, the flag itself is removed and (provided the four names are
not already present) exactly the four options
`ftz=True, fma=True, prec_div=False, prec_sqrt=False` are appended in that
order before the option list is encoded; when `fastmath` is absent the
options are unchanged, and when it is present but falsy it is only removed
and nothing is added. -/
theorem c6_fastmath_expansion (options : List (String × OptValue)) :
    (∀ v, lookupOpt options "fastmath" = some v → truthy v = true →
      hasKey options "ftz" = false → hasKey options "fma" = false →
      hasKey options "prec_div" = false → hasKey options "prec_sqrt" = false →
      compile_ir_options options = removeKey options "fastmath" ++ fastmathExpansion) ∧
    (lookupOpt options "fastmath" = none → compile_ir_options options = options) ∧
    (∀ v, lookupOpt options "fastmath" = some v → truthy v = false →
      compile_ir_options options = removeKey options "fastmath") := by
  refine ⟨?_, ?_, ?_⟩
  · intro v hv htr h1 h2 h3 h4
    rw [compile_ir_options, hv]
    simp only [Option.getD_some]
    rw [if_pos htr]
    exact updateDict_fastmath_fresh _ (hasKey_filter_false _ _ _ h1)
      (hasKey_filter_false _ _ _ h2) (hasKey_filter_false _ _ _ h3)
      (hasKey_filter_false _ _ _ h4)
  · intro hv
    rw [compile_ir_options, hv]
    simp only [Option.getD_none]
    rw [if_neg (by simp [truthy])]
    exact removeKey_of_not_hasKey _ _ (hasKey_eq_false_of_lookup_none _ _ hv)
  · intro v hv htr
    rw [compile_ir_options, hv]
    simp only [Option.getD_some]
    rw [if_neg (by simp [htr])]

theorem c6_fastmath_witness :
    compile_ir_options [("opt_x", .vInt 3), ("fastmath", .vBool true)] =
      removeKey [("opt_x", .vInt 3), ("fastmath", .vBool true)] "fastmath" ++
        fastmathExpansion :=
  (c6_fastmath_expansion _).1 (.vBool true) (by decide) rfl (by decide) (by decide)
    (by decide) (by decide)

/-! ## The early-exit comparison and return values of the generated atomics -/

set_option maxRecDepth 40000

/-- C1 counterexample: the claim is false on the code at the concrete
catalog entries for `float` `nanmax` and plain `float` `max`: the generated
`nanmax` function's early-return `fcmp uno` compares `%val` against `%val`
(not against the loaded `%ptrval` as claimed), and the generated plain
`max` function compares `%val` against `%ptrval` (not `%val` against
`%val`). -/
theorem c1_early_exit_counterexample :
    strContains (ir_numba_atomic_minmax "float" "i32" "nan" "ult" "" "max")
        "%early_return = fcmp uno float %val, %ptrval" = false ∧
    strContains (ir_numba_atomic_minmax "float" "i32" "" "nnan olt" "ptr" "max")
        "%early_return = fcmp uno float %val, %val" = false ∧
    strContains (ir_numba_atomic_minmax "float" "i32" "nan" "ult" "" "max")
        "%early_return = fcmp uno float %val, %val" = true ∧
    strContains (ir_numba_atomic_minmax "float" "i32" "" "nnan olt" "ptr" "max")
        "%early_return = fcmp uno float %val, %ptrval" = true := by
  exact ⟨rfl, rfl, rfl, rfl⟩

/-- C1 (amended): in every generated min/max function the early exit is
taken, without any CAS attempt, when the `fcmp uno` is true; its reference
value is the operand itself for the NaN-aware (`nanmin`/`nanmax`) variants
(the fcmp compares `%val` against `%val`, so only a NaN operand triggers
the early no-op return) and the current pointer contents for the plain
variants (the fcmp compares `%val` against the loaded `%ptrval`, so a NaN
on either side skips the update).  Every one of the eight generated texts
occurs as a replacement in `llvm_replace`. -/
theorem c1_early_exit_amended :
    (minmaxSpecs.all (fun s =>
      if s.NAN = "nan" then
        strContains (genMinmax s) ("%early_return = fcmp uno " ++ s.T ++ " %val, %val")
          && !(strContains (genMinmax s)
            ("%early_return = fcmp uno " ++ s.T ++ " %val, %ptrval"))
      else
        strContains (genMinmax s) ("%early_return = fcmp uno " ++ s.T ++ " %val, %ptrval")
          && !(strContains (genMinmax s)
            ("%early_return = fcmp uno " ++ s.T ++ " %val, %val")))) = true ∧
    (minmaxSpecs.all (fun s =>
      strContains (genMinmax s)
        "br i1 %early_return, label %done, label %lt_check")) = true ∧
    (minmaxSpecs.all (fun s =>
      atomicReplacements.any (fun dr => dr.2 == genMinmax s))) = true := by
  exact ⟨rfl, rfl, rfl⟩

/-- C2: asymmetric return contracts.  Textually: every generated binary
add/sub function ends with `ret` of `%result`, the bitcast of the final
iteration's `%old` (the value observed immediately before the successful
swap), whereas every generated min/max function ends with `ret %ptrval`,
the value loaded in the entry block before the loop began.  Operationally,
on the loop models: any terminating run of a min/max function returns
`ptrval` no matter how many CAS iterations ran, while the binary loop can
return a value different from the initial load (concretely, with initial
load 3 and interference writing 5, it returns 5, the `%old` of the final
CAS iteration). -/
theorem c2_return_contracts :
    (binarySpecs.all (fun s =>
      strContains (genBinary s)
        ("done:\n    %result = bitcast " ++ s.Ti ++ " %old to " ++ s.T ++
          "\n    ret " ++ s.T ++ " %result\n\x7d"))) = true ∧
    (minmaxSpecs.all (fun s =>
      strContains (genMinmax s) ("done:\n    ret " ++ s.T ++ " %ptrval\n\x7d")
        && strContains (genMinmax s) ("entry:\n    %ptrval = load volatile " ++ s.T))) = true ∧
    (∀ (unordered : Bool) (cmp : Nat → Nat → Bool) (val ptrval : Nat) (obs : Nat → Nat)
      (fuel r : Nat),
        minmaxAtomic unordered cmp val ptrval obs fuel = some r → r = ptrval) ∧
    binaryCasLoop (fun a b => a + b) 2 (fun _ => 5) 2 1 3 = some 5 ∧ (5 : Nat) ≠ 3 := by
  refine ⟨rfl, rfl, ?_, rfl, by decide⟩
  intro unordered cmp val ptrval obs fuel r h
  exact minmaxAtomic_ret unordered cmp val ptrval obs fuel r h

theorem c2_return_contracts_witness : (7 : Nat) = 7 :=
  c2_return_contracts.2.2.1 true (fun _ _ => false) 0 7 (fun _ => 0) 1 7 rfl

/-! ## Attribute-line stripping: auxiliary facts -/

theorem takeWhile_append_all (p : Char → Bool) (l₁ l₂ : List Char)
    (h : ∀ a ∈ l₁, p a = true) :
    (l₁ ++ l₂).takeWhile p = l₁ ++ l₂.takeWhile p := by
  induction l₁ with
  | nil => simp
  | cons c t ih =>
    rw [List.cons_append, List.takeWhile_cons, if_pos (by simp [h c (by simp)])]
    rw [ih (fun a ha => h a (by simp [ha]))]
    rfl

theorem dropWhile_append_all (p : Char → Bool) (l₁ l₂ : List Char)
    (h : ∀ a ∈ l₁, p a = true) :
    (l₁ ++ l₂).dropWhile p = l₂.dropWhile p := by
  induction l₁ with
  | nil => simp
  | cons c t ih =>
    rw [List.cons_append, List.dropWhile_cons, if_pos (by simp [h c (by simp)])]
    exact ih (fun a ha => h a (by simp [ha]))

theorem takeWhile_all (p : Char → Bool) (l : List Char) (h : ∀ a ∈ l, p a = true) :
    l.takeWhile p = l := by
  have := takeWhile_append_all p l [] h
  simpa using this

theorem dropWhile_all (p : Char → Bool) (l : List Char) (h : ∀ a ∈ l, p a = true) :
    l.dropWhile p = [] := by
  have := dropWhile_append_all p l [] h
  simpa using this

theorem isPySpace_isWordChar_incompat (c : Char) (hs : isPySpace c = true) :
    isWordChar c = false := by
  simp only [isPySpace, Bool.or_eq_true, decide_eq_true_eq] at hs
  rcases hs with ((((h | h) | h) | h) | h) | h <;> subst h <;> decide

theorem isWordChar_not_pySpace (c : Char) (h : isWordChar c = true) : isPySpace c = false := by
  cases hps : isPySpace c
  · rfl
  · rw [isPySpace_isWordChar_incompat c hps] at h
    exact absurd h (by simp)

theorem joinSpaces_nil : joinSpaces [] = [] := rfl

theorem joinSpaces_single (t : List Char) : joinSpaces [t] = t := rfl

theorem joinSpaces_cons₂ (t t2 : List Char) (ts : List (List Char)) :
    joinSpaces (t :: t2 :: ts) = t ++ ' ' :: joinSpaces (t2 :: ts) := rfl

theorem joinSpaces_chars (toks : List (List Char)) (c : Char) (hc : c ∈ joinSpaces toks) :
    c = ' ' ∨ ∃ t ∈ toks, c ∈ t := by
  induction toks with
  | nil => simp [joinSpaces_nil] at hc
  | cons t ts ih =>
    cases ts with
    | nil =>
      rw [joinSpaces_single] at hc
      exact Or.inr ⟨t, by simp, hc⟩
    | cons t2 ts2 =>
      rw [joinSpaces_cons₂] at hc
      rcases List.mem_append.mp hc with h1 | h2
      · exact Or.inr ⟨t, by simp, h1⟩
      · rcases List.mem_cons.mp h2 with h3 | h4
        · exact Or.inl h3
        · rcases ih h4 with h5 | ⟨u, hu, hcu⟩
          · exact Or.inl h5
          · exact Or.inr ⟨u, by simp [hu], hcu⟩

theorem mem_joinSpaces_of_mem (toks : List (List Char)) (t : List Char) (ht : t ∈ toks)
    (c : Char) (hc : c ∈ t) : c ∈ joinSpaces toks := by
  induction toks with
  | nil => cases ht
  | cons u us ih =>
    cases us with
    | nil =>
      rw [List.mem_singleton] at ht
      subst ht
      simpa [joinSpaces_single] using hc
    | cons u2 us2 =>
      rw [joinSpaces_cons₂]
      rcases List.mem_cons.mp ht with h1 | h2
      · subst h1
        exact List.mem_append.mpr (Or.inl hc)
      · exact List.mem_append.mpr (Or.inr (List.mem_cons_of_mem _ (ih h2)))

theorem joinSpaces_head_shape (c : Char) (q : List Char) (ts : List (List Char)) :
    ∃ q2, joinSpaces ((c :: q) :: ts) = c :: q2 := by
  cases ts with
  | nil => exact ⟨q, joinSpaces_single _⟩
  | cons t2 ts2 =>
    exact ⟨q ++ ' ' :: joinSpaces (t2 :: ts2), by rw [joinSpaces_cons₂]; rfl⟩

theorem pySplit_single (c : Char) (q : List Char) (hc : ∀ a ∈ c :: q, isPySpace a = false) :
    pySplit (c :: q) = [c :: q] := by
  have hall : ∀ a ∈ c :: q, (!isPySpace a) = true := fun a ha => by rw [hc a ha]; rfl
  rw [pySplit_cons, if_neg (by simp [hc c (List.mem_cons_self c q)])]
  rw [takeWhile_all _ _ hall, dropWhile_all _ _ hall, pySplit_nil]

theorem pySplit_chunk (c : Char) (q rest : List Char)
    (hc : ∀ a ∈ c :: q, isPySpace a = false) :
    pySplit ((c :: q) ++ ' ' :: rest) = (c :: q) :: pySplit rest := by
  have hall : ∀ a ∈ c :: q, (!isPySpace a) = true := fun a ha => by rw [hc a ha]; rfl
  rw [List.cons_append, pySplit_cons, if_neg (by simp [hc c (List.mem_cons_self c q)])]
  rw [← List.cons_append, takeWhile_append_all _ _ _ hall, dropWhile_append_all _ _ _ hall]
  rw [show (' ' :: rest).takeWhile (fun a => !isPySpace a) = [] from by
    rw [List.takeWhile_cons, if_neg (by simp [isPySpace])]]
  rw [show (' ' :: rest).dropWhile (fun a => !isPySpace a) = ' ' :: rest from by
    rw [List.dropWhile_cons, if_neg (by simp [isPySpace])]]
  rw [pySplit_cons, if_pos (by simp [isPySpace])]
  simp

theorem pySplit_joinSpaces (toks : List (List Char))
    (h : ∀ t ∈ toks, t ≠ [] ∧ ∀ c ∈ t, isPySpace c = false) :
    pySplit (joinSpaces toks) = toks := by
  induction toks with
  | nil => rfl
  | cons t ts ih =>
    cases ts with
    | nil =>
      rw [joinSpaces_single]
      obtain ⟨hne, hc⟩ := h t (by simp)
      cases t with
      | nil => exact absurd rfl hne
      | cons c q => exact pySplit_single c q hc
    | cons t2 ts2 =>
      rw [joinSpaces_cons₂]
      obtain ⟨hne, hc⟩ := h t (by simp)
      cases t with
      | nil => exact absurd rfl hne
      | cons c q =>
        rw [pySplit_chunk c q _ hc]
        rw [ih (fun u hu => h u (by simp [hu]))]

theorem dropLiteral_append (p x : List Char) : dropLiteral p (p ++ x) = some x := by
  rw [dropLiteral, if_pos (by exact List.isPrefixOf_iff_prefix.mpr ⟨x, rfl⟩)]
  rw [List.drop_left]

theorem tryGroup_succ (T : List Char) (k : Nat) :
    tryGroup T (k + 1) =
      if [' ', '\x7d'].isPrefixOf (T.drop (k + 1)) then some (k + 1) else tryGroup T k := rfl

theorem reMatch_attrLine (ds body : List Char) (hds_ne : ds ≠ [])
    (hds : ∀ c ∈ ds, c.isDigit = true)
    (hbody_ne : body ≠ [])
    (hbody : ∀ c ∈ body, isWordSpace c = true) :
    reMatch (attrLine ds body) = some body := by
  have hline : attrLine ds body =
      "attributes #".data ++ ((ds ++ " = \x7b ".data) ++ (body ++ " \x7d".data)) := by
    rw [attrLine]
    simp [List.append_assoc]
  rw [reMatch, hline, dropLiteral_append, Option.some_bind]
  have hdig : ((ds ++ " = \x7b ".data) ++ (body ++ " \x7d".data)).takeWhile Char.isDigit
      = ds := by
    rw [List.append_assoc, takeWhile_append_all _ _ _ hds]
    rw [show (" = \x7b ".data ++ (body ++ " \x7d".data)) =
        ' ' :: ("= \x7b ".data ++ (body ++ " \x7d".data)) from rfl]
    rw [List.takeWhile_cons, if_neg (by decide)]
    simp
  simp only [hdig]
  rw [if_neg (by simp [hds_ne])]
  have hdrop1 : ((ds ++ " = \x7b ".data) ++ (body ++ " \x7d".data)).drop ds.length =
      " = \x7b ".data ++ (body ++ " \x7d".data) := by
    rw [List.append_assoc]
    exact List.drop_left ds _
  rw [hdrop1, dropLiteral_append, Option.some_bind]
  have htw : (body ++ " \x7d".data).takeWhile isWordSpace = body ++ [' '] := by
    rw [takeWhile_append_all _ _ _ hbody]
    rfl
  rw [htw]
  have hlen : (body ++ [' ']).length = body.length + 1 := by simp
  rw [hlen]
  have hpos : body.length ≠ 0 := fun h0 => hbody_ne (List.length_eq_zero.mp h0)
  have hdropT1 : (body ++ " \x7d".data).drop (body.length + 1) = ['\x7d'] := by
    rw [List.drop_append 1]
    rfl
  have hdropT0 : (body ++ " \x7d".data).drop body.length = [' ', '\x7d'] := by
    rw [List.drop_left]
  have htg : tryGroup (body ++ " \x7d".data) (body.length + 1) = some body.length := by
    rw [tryGroup_succ, if_neg (by rw [hdropT1]; decide)]
    cases hn : body.length with
    | zero => exact absurd hn hpos
    | succ m =>
      show tryGroup (body ++ " \x7d".data) (m + 1) = some (m + 1)
      rw [tryGroup_succ,
        if_pos (by rw [show m + 1 = body.length from by omega, hdropT0]; decide)]
  rw [htg, Option.map_some']
  rw [List.take_left]

theorem attr_prologue_no_w (ds : List Char) (hds : ∀ c ∈ ds, c.isDigit = true) :
    ('w' ∈ "attributes #".data ++ (ds ++ " = \x7b ".data)) → False := by
  intro hmem
  rcases List.mem_append.mp hmem with h1 | h2
  · exact absurd h1 (by decide)
  · rcases List.mem_append.mp h2 with h3 | h4
    · exact absurd (hds 'w' h3) (by decide)
    · exact absurd h4 (by decide)

theorem no_body_occurrence_in_prologue (ds body tail2 : List Char)
    (hds : ∀ c ∈ ds, c.isDigit = true)
    (hbody : ∀ c ∈ body, isWordSpace c = true)
    (hhead : ∃ c0 q, body = c0 :: q ∧ isWordChar c0 = true)
    (hw : 'w' ∈ body) :
    ∀ k, k < ("attributes #".data ++ (ds ++ " = \x7b ".data)).length →
      body.isPrefixOf
        ((("attributes #".data ++ (ds ++ " = \x7b ".data)) ++ (body ++ tail2)).drop k) =
        false := by
  intro k hk
  cases hX : body.isPrefixOf
      ((("attributes #".data ++ (ds ++ " = \x7b ".data)) ++ (body ++ tail2)).drop k) with
  | false => rfl
  | true =>
    exfalso
    obtain ⟨t0, ht0⟩ := List.isPrefixOf_iff_prefix.mp hX
    set P := "attributes #".data ++ (ds ++ " = \x7b ".data) with hP
    set P1 := "attributes #".data ++ (ds ++ " = ".data) with hP1
    have hsplit : P = P1 ++ ['\x7b', ' '] := by
      rw [hP, hP1, show " = \x7b ".data = " = ".data ++ ['\x7b', ' '] from rfl]
      simp [List.append_assoc]
    have hlen12 : P.length = P1.length + 2 := by
      rw [hsplit]
      simp
    have hkle : k ≤ P.length := Nat.le_of_lt hk
    rw [List.drop_append_of_le_length hkle] at ht0
    by_cases hcase : k + body.length ≤ P.length
    · have hble : body.length ≤ (P.drop k).length := by
        rw [List.length_drop]
        omega
      have hbeq : body = (P.drop k).take body.length := by
        have h5 := congrArg (List.take body.length) ht0
        rw [List.take_left, List.take_append_of_le_length hble] at h5
        exact h5
      apply attr_prologue_no_w ds hds
      show 'w' ∈ P
      rw [hbeq] at hw
      exact List.drop_subset _ _ (List.take_subset _ _ hw)
    · by_cases hksmall : k ≤ P1.length
      · -- the brace at position |P| - 2 falls inside the occurrence
        rw [hsplit, List.drop_append_of_le_length hksmall] at ht0
        have hd : (P1.drop k).length < body.length := by
          rw [List.length_drop]
          omega
        have h6 := congrArg (List.drop (P1.drop k).length) ht0
        rw [List.drop_append_of_le_length (Nat.le_of_lt hd), List.append_assoc,
          List.drop_left] at h6
        cases hbd : body.drop (P1.drop k).length with
        | nil =>
          have h7 := congrArg List.length hbd
          rw [List.length_drop, List.length_nil] at h7
          omega
        | cons b0 brest =>
          rw [hbd] at h6
          have hb0 : b0 = '\x7b' := by
            have h8 := congrArg (fun l => l.head?) h6
            simpa using h8
          have hb0mem : b0 ∈ body := by
            apply List.drop_subset _ body
            rw [hbd]
            exact List.mem_cons_self _ _
          have h9 := hbody b0 hb0mem
          rw [hb0] at h9
          exact absurd h9 (by decide)
      · -- k = |P| - 1: the occurrence starts at the final space of the prologue
        have hkeq : k = P1.length + 1 := by omega
        rw [hsplit, hkeq, List.drop_append 1] at ht0
        obtain ⟨c0, q, hbq, hc0⟩ := hhead
        rw [hbq] at ht0
        have hc0sp : c0 = ' ' := by
          have h10 := congrArg (fun l => l.head?) ht0
          simpa using h10
        rw [hc0sp] at hc0
        exact absurd hc0 (by decide)

theorem joinSpaces_ne_nil (t : List Char) (ts : List (List Char)) (ht : t ≠ []) :
    joinSpaces (t :: ts) ≠ [] := by
  cases ts with
  | nil => simpa [joinSpaces_single] using ht
  | cons t2 ts2 =>
    rw [joinSpaces_cons₂]
    cases t with
    | nil => exact absurd rfl ht
    | cons c q => simp

theorem attrLine_assoc (ds body : List Char) :
    attrLine ds body =
      ("attributes #".data ++ (ds ++ " = \x7b ".data)) ++ (body ++ " \x7d".data) := by
  simp [attrLine]

/-- C4 counterexample: the per-line attribute stripping does not remove the
`immarg` token: an attribute-group line containing `immarg` passes through
`llvm150_to_70_ir` unchanged, so `immarg` is not on the removal list of the
attribute-stripping pass (it is removed elsewhere, by a global substring
replacement in `llvm_replace`). -/
theorem c4_attribute_stripping_counterexample :
    llvm150_to_70_ir "attributes #0 = \x7b immarg nounwind \x7d" =
      some "attributes #0 = \x7b immarg nounwind \x7d" := by
  decide

/-- C4 (amended): attribute stripping operates per attribute-group
definition line and its removal list is exactly `willreturn` (`immarg` is
not removed here but by a global substring replacement): for every
attribute-group line `attributes #<digits> = \x7b <tokens> \x7d` (non-empty
digit string, at least one token, tokens made of word characters), every
`willreturn` token is removed, all other tokens are preserved in their
original order, a line containing only non-listed tokens is returned
unchanged, and lines that are not attribute-group definitions are not
altered. -/
theorem c4_attribute_stripping (ds : List Char) (toks : List (List Char))
    (hds_ne : ds ≠ []) (hds : ∀ c ∈ ds, c.isDigit = true)
    (htoks_ne : toks ≠ [])
    (htoks : ∀ t ∈ toks, t ≠ [] ∧ ∀ c ∈ t, isWordChar c = true) :
    llvm150Line (attrLine ds (joinSpaces toks)) =
        some (attrLine ds
          (joinSpaces (toks.filter (fun t => !(t == "willreturn".data))))) ∧
    (∀ l, ("attributes #".data).isPrefixOf l = false → llvm150Line l = some l) := by
  have hbody_ne : joinSpaces toks ≠ [] := by
    cases toks with
    | nil => exact absurd rfl htoks_ne
    | cons t ts => exact joinSpaces_ne_nil t ts (htoks t (by simp)).1
  have hbody_ws : ∀ c ∈ joinSpaces toks, isWordSpace c = true := by
    intro c hc
    rcases joinSpaces_chars toks c hc with h1 | ⟨t, ht, hct⟩
    · rw [h1]
      decide
    · rw [isWordSpace, (htoks t ht).2 c hct]
      rfl
  have hhead : ∃ c0 q, joinSpaces toks = c0 :: q ∧ isWordChar c0 = true := by
    cases toks with
    | nil => exact absurd rfl htoks_ne
    | cons t ts =>
      obtain ⟨hne, hword⟩ := htoks t (by simp)
      obtain ⟨c0, q0, ht⟩ : ∃ c0 q0, t = c0 :: q0 := by
        cases t with
        | nil => exact absurd rfl hne
        | cons a b => exact ⟨a, b, rfl⟩
      obtain ⟨q2, hq2⟩ := joinSpaces_head_shape c0 q0 ts
      refine ⟨c0, q2, ?_, ?_⟩
      · rw [ht]
        exact hq2
      · apply hword
        rw [ht]
        simp
  constructor
  · have hstart : ("attributes #".data).isPrefixOf (attrLine ds (joinSpaces toks)) = true := by
      rw [attrLine, List.append_assoc]
      exact List.isPrefixOf_iff_prefix.mpr ⟨_, rfl⟩
    rw [llvm150Line, if_pos hstart,
      reMatch_attrLine ds (joinSpaces toks) hds_ne hds hbody_ne hbody_ws, Option.map_some']
    have hsplitted : pySplit (joinSpaces toks) = toks := by
      apply pySplit_joinSpaces
      intro t ht
      exact ⟨(htoks t ht).1, fun c hc => isWordChar_not_pySpace c ((htoks t ht).2 c hc)⟩
    rw [stripWillreturn, hsplitted]
    by_cases hwr : ("willreturn".data) ∈ toks
    · -- willreturn occurs: the body contains a 'w', so it cannot also occur
      -- in the line's prologue, and the replacement rewrites only the body
      have hw : 'w' ∈ joinSpaces toks :=
        mem_joinSpaces_of_mem toks ("willreturn".data) hwr 'w' (by decide)
      have hnomatch := no_body_occurrence_in_prologue ds (joinSpaces toks) (" \x7d".data)
        hds hbody_ws hhead hw
      have hT2 : containsSub (" \x7d".data) (joinSpaces toks) = false := by
        obtain ⟨c0, q, hbq, hc0⟩ := hhead
        have h1 : (c0 == ' ') = false := by
          rw [beq_eq_false_iff_ne]
          intro he
          rw [he] at hc0
          exact absurd hc0 (by decide)
        have h2 : (c0 == '\x7d') = false := by
          rw [beq_eq_false_iff_ne]
          intro he
          rw [he] at hc0
          exact absurd hc0 (by decide)
        rw [hbq]
        show containsSub [' ', '\x7d'] (c0 :: q) = false
        simp [containsSub, List.isPrefixOf, h1, h2]
      rw [attrLine_assoc, pyReplace, if_neg (by simp [hbody_ne])]
      rw [replaceAllAux_append_of_no_match _ _ _ _ hnomatch]
      rw [replaceAllAux_append_match _ _ _ hbody_ne]
      rw [replaceAllAux_of_not_contains _ _ _ hT2]
      rw [attrLine_assoc]
    · -- no willreturn token: the filter keeps everything and the replacement
      -- substitutes the body for itself
      have hfilter : toks.filter (fun t => !(t == "willreturn".data)) = toks := by
        apply List.filter_eq_self.mpr
        intro t ht
        have hne2 : (t == "willreturn".data) = false := by
          rw [beq_eq_false_iff_ne]
          intro he
          rw [he] at ht
          exact hwr ht
        rw [hne2]
        rfl
      rw [hfilter, pyReplace, if_neg (by simp [hbody_ne]),
        replaceAllAux_self (joinSpaces toks) hbody_ne]
  · intro l hl
    rw [llvm150Line, if_neg (by simp [hl])]

theorem c4_attribute_stripping_witness :
    llvm150Line (attrLine ['0'] (joinSpaces ["noinline".data, "willreturn".data])) =
      some (attrLine ['0'] (joinSpaces
        (["noinline".data, "willreturn".data].filter
          (fun t => !(t == "willreturn".data))))) :=
  (c4_attribute_stripping ['0'] ["noinline".data, "willreturn".data]
    (by decide) (by decide) (by decide) (by decide)).1
